import Mathlib

set_option maxRecDepth 100000

/-!
Verification of the `smol-layout` text-wrapping library.

The source (`src/lib.rs`) has three parts:
* `break_property` — a two-level compressed-table codepoint classifier;
* `linebreaks` — a pair-table automaton emitting one `(byte offset, Option BreakOpportunity)`
  per codepoint plus a trailing end-of-text sentinel;
* `apply_newlines` — a greedy width-driven wrapper that re-scans a shrinking working
  sequence of `(Char, Option BreakOpportunity)` pairs.

The classification and transition tables (`shared.rs` and the generated `tables.rs`) are not
part of the source tree; following the spec, which treats them as an opaque read-only oracle,
they are modelled as an explicit parameter `Tables`.  Every function below is a direct
transcription of the Rust source; machine integers are modelled as `Nat` (all the arithmetic
in the source is non-overflowing index/width arithmetic on `usize`/`u8`).
-/

/-- Break opportunity type (source: `enum BreakOpportunity`). -/
inductive BreakOpportunity where
  /-- A line must break at this spot. -/
  | Mandatory
  /-- A line is allowed to end at this spot. -/
  | Allowed
deriving DecidableEq, Repr, Inhabited

/-- Error type of `apply_newlines` (source: `enum LineBreakErr`). -/
inductive LineBreakErr where
  | MissingCharacterWidth (c : Char)
  | NoLegalLinebreakOpportunity
deriving DecidableEq, Repr

/-- Modelled from the spec: the classification and pair-transition tables of `shared.rs` /
`tables.rs` are not under `src`; the spec treats them as an opaque read-only oracle
("the core treats these tables as an opaque read-only oracle").  Break classes are modelled
as `Nat` codes (the spec's closed enumeration, with `unknownClass` the `Unknown` class and
`sot`/`eot` the sentinel pseudo-classes), and the packed table entries as `Nat` with the
flag bits `uniformPage`, `allowedBit`, `mandatoryBit`. -/
structure Tables where
  pageIndices : List Nat
  breakPropData : List (List Nat)
  pairTable : List (List Nat)
  uniformPage : Nat
  allowedBit : Nat
  mandatoryBit : Nat
  sot : Nat
  eot : Nat
  zwjClass : Nat
  unknownClass : Nat

/-- The codepoint classifier (source: `fn break_property`).  `PAGE_INDICES[cp >> 8]` either
carries the `UNIFORM_PAGE` flag and directly encodes the class of the whole 256-codepoint
block, or is an index into `BREAK_PROP_DATA`; a high byte outside the index table yields the
`Unknown` class.  `x - (x &&& flag)` is `x & !flag` of the source. -/
def break_property (T : Tables) (codepoint : Nat) : Nat :=
  match T.pageIndices.get? (codepoint >>> 8) with
  | some pageIdx =>
      if pageIdx &&& T.uniformPage ≠ 0 then pageIdx - (pageIdx &&& T.uniformPage)
      else ((T.breakPropData.get? pageIdx).getD []).getD (codepoint &&& 0xFF) T.unknownClass
  | none => T.unknownClass

/-- `PAIR_TABLE[state][class]` lookup. -/
def pairLookup (T : Tables) (state cls : Nat) : Nat :=
  ((T.pairTable.get? state).getD []).getD cls 0

/-- Clearing the two break bits of a packed table value
(`val & !(ALLOWED_BREAK_BIT | MANDATORY_BREAK_BIT)` in the source). -/
def stripBits (T : Tables) (val : Nat) : Nat :=
  val - (val &&& (T.allowedBit ||| T.mandatoryBit))

/-- The emission step of the scanner (source: body of the `scan` closure in `linebreaks`):
`is_mandatory = val & MANDATORY_BREAK_BIT != 0`,
`is_break = val & ALLOWED_BREAK_BIT != 0 && (!zwj || is_mandatory)`, and the final `map`
turning the two bits into an `Option BreakOpportunity`. -/
def emit (T : Tables) (val : Nat) (zwj : Bool) : Option BreakOpportunity :=
  let isMandatory : Bool := val &&& T.mandatoryBit != 0
  let isBreak : Bool := (val &&& T.allowedBit != 0) && (!zwj || isMandatory)
  if isBreak then some (if isMandatory then .Mandatory else .Allowed) else none

/-- The scanner automaton run over a list of `(byte offset, class)` pairs, carrying the
table state and the ZWJ-suppression flag (source: the `scan((sot, false), ...)` in
`linebreaks`). -/
def lbScan (T : Tables) : Nat → Bool → List (Nat × Nat) → List (Nat × Option BreakOpportunity)
  | _, _, [] => []
  | state, zwj, (i, cls) :: rest =>
      let val := pairLookup T state cls
      (i, emit T val zwj) :: lbScan T (stripBits T val) (cls == T.zwjClass) rest

/-- Byte offsets of the codepoints of a string (embedding of `str::char_indices`). -/
def charIndicesAux : Nat → List Char → List (Nat × Char)
  | _, [] => []
  | i, c :: cs => (i, c) :: charIndicesAux (i + c.utf8Size) cs

/-- `s.char_indices()` as a list. -/
def charIndices (s : String) : List (Nat × Char) :=
  charIndicesAux 0 s.data

/-- The byte length of a string (embedding of `str::len`). -/
def strByteLen (s : String) : Nat :=
  (s.data.map Char.utf8Size).sum

/-- The input fed to the automaton: every codepoint classified, followed by the end-of-text
sentinel positioned at the string's byte length. -/
def lbInputs (T : Tables) (s : String) : List (Nat × Nat) :=
  (charIndices s).map (fun p => (p.1, break_property T p.2.toNat)) ++ [(strByteLen s, T.eot)]

/-- The break-opportunity scanner (source: `fn linebreaks`): one output pair per codepoint
plus one for the trailing sentinel. -/
def linebreaks (T : Tables) (s : String) : List (Nat × Option BreakOpportunity) :=
  lbScan T T.sot false (lbInputs T s)

/-- A character of the working sequence paired with its break annotation. -/
abbrev Entry := Char × Option BreakOpportunity

/-- The working sequence built at the top of `apply_newlines`: each char of the string zipped
with the next element of `linebreaks` (the trailing sentinel is never consumed by the zip). -/
def annotate (T : Tables) (s : String) : List Entry :=
  s.data.zip ((linebreaks T s).map Prod.snd)

/-- Result of one left-to-right pass of the wrapper's `for` loop over the working sequence. -/
inductive ScanResult where
  /-- `font.get(c)` returned `None`: abort with `MissingCharacterWidth`. -/
  | missing (c : Char)
  /-- width exceeded with no recorded break point: abort with `NoLegalLinebreakOpportunity`. -/
  | noBreak
  /-- width exceeded with a recorded break point `b`: split the working sequence at `b`. -/
  | split (b : Nat)
  /-- the pass ran to the end of the sequence (or hit a null character) without splitting. -/
  | done
deriving DecidableEq, Repr

/-- One pass of the wrapper's inner `for` loop (source: the `for (cursor, (c, break_op))`
loop of `apply_newlines`): `w` is `current_width`, `bp` is `break_point`, `cursor` the
enumeration index.  A null character ends the pass; a newline resets the width and is never
measured; otherwise the character's width is added, overflow either splits at the recorded
break point or fails, and within budget a present annotation at a nonzero cursor is recorded. -/
def scanStep (font : Char → Option Nat) (maxW : Nat) :
    List Entry → Nat → Nat → Option Nat → ScanResult
  | [], _, _, _ => .done
  | (c, brk) :: rest, cursor, w, bp =>
      if c = '\x00' then .done
      else if c = '\n' then scanStep font maxW rest (cursor + 1) 0 bp
      else
        match font c with
        | none => .missing c
        | some wc =>
            if maxW < w + wc then
              match bp with
              | some b => .split b
              | none => .noBreak
            else
              scanStep font maxW rest (cursor + 1) (w + wc)
                (if brk.isSome && cursor != 0 then some cursor else bp)

/-- The wrapper's outer `loop`, fuelled: on a split the prefix (as characters) plus a newline
is flushed to the output and the suffix becomes the working sequence.  The zero-fuel value
coincides with what a completed pass over an empty sequence produces; `applyCore` supplies
fuel `chars.length`, which is enough because every split removes at least one element. -/
def applyCoreF (font : Char → Option Nat) (maxW : Nat) :
    Nat → List Entry → List Char → Except LineBreakErr (List Char)
  | 0, chars, out => .ok (out ++ chars.map Prod.fst)
  | fuel + 1, chars, out =>
      match scanStep font maxW chars 0 0 none with
      | .missing c => .error (.MissingCharacterWidth c)
      | .noBreak => .error .NoLegalLinebreakOpportunity
      | .done => .ok (out ++ chars.map Prod.fst)
      | .split b =>
          applyCoreF font maxW fuel (chars.drop b)
            (out ++ (chars.take b).map Prod.fst ++ ['\n'])

/-- The wrapper's outer loop on a working sequence. -/
def applyCore (font : Char → Option Nat) (maxW : Nat)
    (chars : List Entry) (out : List Char) : Except LineBreakErr (List Char) :=
  applyCoreF font maxW chars.length chars out

/-- `apply_newlines` (source: `pub fn apply_newlines`): annotate the string, run the loop and
return the accumulated output followed by the remaining characters.  The font map is modelled
as `Char → Option Nat` (`HashMap::get`). -/
def apply_newlines (T : Tables) (s : String) (maxW : Nat)
    (font : Char → Option Nat) : Except LineBreakErr String :=
  (applyCore font maxW (annotate T s) []).map String.mk

/-! ### Second descriptions, stated against the spec's vocabulary rather than the loop -/

/-- The maximal segments between newlines of a character list (the spec's "reconstructed
lines"); a trailing newline contributes a final empty line. -/
def linesOf : List Char → List (List Char)
  | [] => [[]]
  | c :: rest =>
      if c = '\n' then [] :: linesOf rest
      else (c :: (linesOf rest).headD []) :: (linesOf rest).tail

/-- Accumulated character width of one line. -/
def lineWidth (font : Char → Option Nat) (l : List Char) : Nat :=
  (l.map (fun c => (font c).getD 0)).sum

/-- Every reconstructed line fits in the budget. -/
def linesFit (font : Char → Option Nat) (maxW : Nat) (l : List Char) : Prop :=
  ∀ seg ∈ linesOf l, lineWidth font seg ≤ maxW

instance (font : Char → Option Nat) (maxW : Nat) (l : List Char) :
    Decidable (linesFit font maxW l) :=
  inferInstanceAs (Decidable (∀ seg ∈ linesOf l, lineWidth font seg ≤ maxW))

/-- A pass over `l` starting at accumulated width `w` runs to its end (or to a null) without
a missing width and without ever exceeding `maxW`. -/
def scanOk (font : Char → Option Nat) (maxW : Nat) : List Char → Nat → Bool
  | [], _ => true
  | c :: rest, w =>
      if c = '\x00' then true
      else if c = '\n' then scanOk font maxW rest 0
      else
        match font c with
        | none => false
        | some wc => decide (w + wc ≤ maxW) && scanOk font maxW rest (w + wc)

/-- The accumulated width after a full pass over `l` starting at width `w` (resets at
newlines, measures everything else with `getD 0`). -/
def endW (font : Char → Option Nat) : List Char → Nat → Nat
  | [], w => w
  | c :: rest, w =>
      if c = '\n' then endW font rest 0
      else endW font rest (w + (font c).getD 0)

/-- The recorded break point after processing `x` within budget, starting from cursor
`cursor` and recorded point `bp` (mirrors the update in `scanStep`). -/
def lastBp : List Entry → Nat → Option Nat → Option Nat
  | [], _, bp => bp
  | (c, brk) :: rest, cursor, bp =>
      if c = '\n' then lastBp rest (cursor + 1) bp
      else lastBp rest (cursor + 1) (if brk.isSome && cursor != 0 then some cursor else bp)

/-- Position `j` of the working sequence is an overflow point: everything before it is
null-free and processed within budget, `j` holds a measurable non-null non-newline character
whose width pushes the accumulated width over the budget. -/
def overflowCondAt (font : Char → Option Nat) (maxW : Nat) (l : List Entry) (j : Nat) : Bool :=
  let pre := (l.take j).map Prod.fst
  let e := l.getD j (' ', none)
  pre.all (· != '\x00') && scanOk font maxW pre 0 &&
  (e.1 != '\x00') && (e.1 != '\n') &&
  (match font e.1 with
   | none => false
   | some wc => decide (maxW < endW font pre 0 + wc))

/-- No safe break was recorded strictly before position `j`: every earlier position other
than the sub-scan's first is a newline (skipped by the loop) or carries no annotation. -/
def noRecordedBefore (l : List Entry) (j : Nat) : Bool :=
  (List.range j).all fun i =>
    i == 0 || (l.getD i (' ', none)).1 == '\n' || !(l.getD i (' ', none)).2.isSome

/-- Some position of the working sequence overflows the budget with no safe break recorded
before it (the no-legal-break situation, stated positionally). -/
def noBreakOverflow (font : Char → Option Nat) (maxW : Nat) (l : List Entry) : Bool :=
  (List.range l.length).any fun j =>
    overflowCondAt font maxW l j && noRecordedBefore l j

/-- Modelled from the spec: claim C2's literal reading of "no break annotation at a position
other than the sub-scan's first character was seen at or before the overflow point" — the
annotation check runs up to and including the overflow position and exempts no newline. -/
def noRecordedBeforeSpec (l : List Entry) (j : Nat) : Bool :=
  (List.range (j + 1)).all fun i =>
    i == 0 || !(l.getD i (' ', none)).2.isSome

/-- Modelled from the spec: the overflow-without-recorded-break condition under claim C2's
literal reading. -/
def noBreakOverflowSpec (font : Char → Option Nat) (maxW : Nat) (l : List Entry) : Bool :=
  (List.range l.length).any fun j =>
    overflowCondAt font maxW l j && noRecordedBeforeSpec l j

/-- The working sequences the outer loop passes through, starting from `l`. -/
inductive Reaches (font : Char → Option Nat) (maxW : Nat) : List Entry → List Entry → Prop
  | refl (l : List Entry) : Reaches font maxW l l
  | step (l : List Entry) (b : Nat) (l' : List Entry) :
      scanStep font maxW l 0 0 none = .split b →
      Reaches font maxW (l.drop b) l' → Reaches font maxW l l'

/-- The automaton state after consuming a list of classes from the start-of-text state. -/
def autoState (T : Tables) (clss : List Nat) : Nat :=
  clss.foldl (fun st cls => stripBits T (pairLookup T st cls)) T.sot

/-- The table's verdict for the boundary immediately *before* codepoint `k` of the class
sequence `clss` (for `k = clss.length - 1`, i.e. the `eot` entry, the boundary after the last
real codepoint): the pair-table lookup that consumes class `k`, with the ZWJ flag set when
the preceding class is the ZWJ class. -/
def boundaryBefore (T : Tables) (clss : List Nat) (k : Nat) : Option BreakOpportunity :=
  emit T (pairLookup T (autoState T (clss.take k)) (clss.getD k 0))
    (match k with
     | 0 => false
     | k0 + 1 => clss.getD k0 0 == T.zwjClass)

/-- The classes of a string's codepoints. -/
def classesOf (T : Tables) (s : String) : List Nat :=
  s.data.map (fun c => break_property T c.toNat)

/-- Modelled from the spec: the scanner output under claim C3's reading, where the pair
tagged with codepoint `k`'s byte offset states the verdict for the boundary immediately
*after* codepoint `k` (the sentinel's discarded value is left empty). -/
def linebreaksSpecAfter (T : Tables) (s : String) : List (Nat × Option BreakOpportunity) :=
  (charIndices s).enum.map
    (fun p => (p.2.1, boundaryBefore T (classesOf T s ++ [T.eot]) (p.1 + 1)))
    ++ [(strByteLen s, none)]

/-! ### Concrete instances used by counterexamples, witnesses and sanity checks -/

/-- A concrete spec-faithful table: one non-uniform page covering the first 256 codepoints,
classes `1` = letter-like, `2` = space, sentinel classes `0`/`3`, ZWJ class `4`, unknown `5`.
The pair table allows a break exactly before a letter that follows a space. -/
def tTest : Tables where
  pageIndices := [0]
  breakPropData := [(List.range 256).map fun i => if i == 32 then 2 else 1]
  pairTable :=
    [[0, 1, 2, 3, 4, 5],
     [0, 1, 2, 3, 4, 5],
     [0, 65, 2, 3, 4, 5],
     [0, 1, 2, 3, 4, 5],
     [0, 1, 2, 3, 4, 5],
     [0, 1, 2, 3, 4, 5]]
  uniformPage := 32768
  allowedBit := 64
  mandatoryBit := 128
  sot := 0
  eot := 3
  zwjClass := 4
  unknownClass := 5

/-- Uniform width-one font covering every character. -/
def f1 : Char → Option Nat := fun _ => some 1

/-- Width-one font except that the newline character is given width 100. -/
def f2 : Char → Option Nat := fun c => if c = '\n' then some 100 else some 1

/-- Width-one font except that 'b' is three units wide. -/
def f3 : Char → Option Nat := fun c => if c = 'b' then some 3 else some 1

/-- Font lacking a width for '≤' and giving 'a' width five. -/
def f5 : Char → Option Nat :=
  fun c => if c = '≤' then none else if c = 'a' then some 5 else some 1

/-- Font lacking a width for '≤', width one otherwise. -/
def fNone : Char → Option Nat := fun c => if c = '≤' then none else some 1

/-- Width-one font except that the newline character has width 50. -/
def fA : Char → Option Nat := fun c => if c = '\n' then some 50 else some 1

/-- Working sequence demonstrating a split that uses a break point recorded before a literal
newline for an overflow occurring after it: the only annotation is at position 1, the newline
sits at position 2, and the accumulated width first exceeds 2 at position 5. -/
def demoCross : List Entry :=
  [('a', none), ('b', some .Allowed), ('\n', none), ('c', none), ('d', none), ('e', none)]

/-! ### Sanity checks: the embedding reproduces the repository's own test vectors
(`mod tests` in the source), with `tTest` standing in for the generated Unicode tables. -/

/-- Test 1 of the source: a 32-character string under a 35-unit budget is unchanged. -/
theorem sanity_test_short :
    apply_newlines tTest "This is a simple newline string." 35 f1 =
      .ok "This is a simple newline string." := by
  rfl

/-- Test 2 of the source: the longer string splits at the break before "But". -/
theorem sanity_test_split :
    apply_newlines tTest "This is a simple newline string. But then it gets a little longer."
      35 f1 =
      .ok "This is a simple newline string. \nBut then it gets a little longer." := by
  rfl

/-- Test 3 of the source: an unbreakable 34-character run under a 30-unit budget fails. -/
theorem sanity_test_nobreak :
    apply_newlines tTest "Supercalifragalisticexpialidocious" 30 f1 =
      .error .NoLegalLinebreakOpportunity := by
  rfl

/-- Test 4 of the source: a character without a width fails with `MissingCharacterWidth`. -/
theorem sanity_test_missing :
    apply_newlines tTest "≤" 30 fNone = .error (.MissingCharacterWidth '≤') := by
  rfl

/-! ### Lemmas about a single pass (`scanStep`) -/

/-- A pass returns `done` exactly when the character sequence scans to its end (or to a
null) within budget and fully measured; the cursor and recorded break point are irrelevant. -/
theorem scanStep_done_iff (font : Char → Option Nat) (maxW : Nat) (l : List Entry) :
    ∀ (cursor w : Nat) (bp : Option Nat),
      scanStep font maxW l cursor w bp = .done ↔
        scanOk font maxW (l.map Prod.fst) w = true := by
  induction l with
  | nil => intro cursor w bp; simp [scanStep, scanOk]
  | cons e0 rest ih =>
    obtain ⟨c, brk⟩ := e0
    intro cursor w bp
    by_cases h0 : c = '\x00'
    · simp [scanStep, scanOk, h0]
    · by_cases hn : c = '\n'
      · simp [scanStep, scanOk, h0, hn, ih]
      · cases hf : font c with
        | none => simp [scanStep, scanOk, h0, hn, hf]
        | some wc =>
          by_cases hov : maxW < w + wc
          · cases bp <;>
              simp [scanStep, scanOk, h0, hn, hf, hov, Nat.not_le.mpr hov]
          · simp [scanStep, scanOk, h0, hn, hf, hov, Nat.not_lt.mp hov, ih]

/-- Inversion of a `split` outcome: the sequence decomposes as a fully processed null-free
block `x`, then the overflowing character, and the split point is the break recorded over
`x`. -/
theorem scanStep_split_inv (font : Char → Option Nat) (maxW : Nat) (l : List Entry) :
    ∀ (cursor w : Nat) (bp : Option Nat) (b : Nat),
      scanStep font maxW l cursor w bp = .split b →
      ∃ x e r, l = x ++ e :: r ∧ '\x00' ∉ x.map Prod.fst ∧
        scanOk font maxW (x.map Prod.fst) w = true ∧
        e.1 ≠ '\x00' ∧ e.1 ≠ '\n' ∧
        (∃ wc, font e.1 = some wc ∧ maxW < endW font (x.map Prod.fst) w + wc) ∧
        lastBp x cursor bp = some b := by
  induction l with
  | nil => intro cursor w bp b h; simp [scanStep] at h
  | cons e0 rest ih =>
    obtain ⟨c, brk⟩ := e0
    intro cursor w bp b h
    by_cases h0 : c = '\x00'
    · simp [scanStep, h0] at h
    · by_cases hn : c = '\n'
      · simp only [scanStep, if_neg h0, if_pos hn] at h
        obtain ⟨x, e, r, hl, hx0, hsc, he0, hen, hov, hbp⟩ := ih (cursor + 1) 0 bp b h
        refine ⟨(c, brk) :: x, e, r, by simp [hl], ?_, ?_, he0, hen, ?_, ?_⟩
        · simpa [hn, h0] using hx0
        · simpa [scanOk, hn, h0] using hsc
        · simpa [endW, hn] using hov
        · simpa [lastBp, hn] using hbp
      · cases hf : font c with
        | none => simp only [scanStep, if_neg h0, if_neg hn, hf] at h; exact absurd h (by simp)
        | some wc =>
          by_cases hov : maxW < w + wc
          · cases bp with
            | none => simp only [scanStep, if_neg h0, if_neg hn, hf] at h; simp [hov] at h
            | some b' =>
              simp only [scanStep, if_neg h0, if_neg hn, hf] at h
              simp only [if_pos hov] at h
              cases h
              exact ⟨[], (c, brk), rest, rfl, by simp, rfl, h0, hn,
                ⟨wc, hf, by simpa [endW] using hov⟩, rfl⟩
          · simp only [scanStep, if_neg h0, if_neg hn, hf] at h
            simp only [if_neg hov] at h
            obtain ⟨x, e, r, hl, hx0, hsc, he0, hen, hovr, hbp⟩ :=
              ih (cursor + 1) (w + wc) _ b h
            refine ⟨(c, brk) :: x, e, r, by simp [hl], ?_, ?_, he0, hen, ?_, ?_⟩
            · intro hmem
              simp only [List.map_cons, List.mem_cons] at hmem
              rcases hmem with h | h
              · exact h0 h.symm
              · exact hx0 h
            · simp [scanOk, h0, hn, hf, Nat.not_lt.mp hov, hsc]
            · simpa [endW, hn, hf] using hovr
            · simpa [lastBp, hn] using hbp

/-- Inversion of a `noBreak` outcome: as for `split`, but no break point was recorded. -/
theorem scanStep_noBreak_inv (font : Char → Option Nat) (maxW : Nat) (l : List Entry) :
    ∀ (cursor w : Nat) (bp : Option Nat),
      scanStep font maxW l cursor w bp = .noBreak →
      ∃ x e r, l = x ++ e :: r ∧ '\x00' ∉ x.map Prod.fst ∧
        scanOk font maxW (x.map Prod.fst) w = true ∧
        e.1 ≠ '\x00' ∧ e.1 ≠ '\n' ∧
        (∃ wc, font e.1 = some wc ∧ maxW < endW font (x.map Prod.fst) w + wc) ∧
        lastBp x cursor bp = none := by
  induction l with
  | nil => intro cursor w bp h; simp [scanStep] at h
  | cons e0 rest ih =>
    obtain ⟨c, brk⟩ := e0
    intro cursor w bp h
    by_cases h0 : c = '\x00'
    · simp [scanStep, h0] at h
    · by_cases hn : c = '\n'
      · simp only [scanStep, if_neg h0, if_pos hn] at h
        obtain ⟨x, e, r, hl, hx0, hsc, he0, hen, hov, hbp⟩ := ih (cursor + 1) 0 bp h
        refine ⟨(c, brk) :: x, e, r, by simp [hl], ?_, ?_, he0, hen, ?_, ?_⟩
        · simpa [hn, h0] using hx0
        · simpa [scanOk, hn, h0] using hsc
        · simpa [endW, hn] using hov
        · simpa [lastBp, hn] using hbp
      · cases hf : font c with
        | none => simp only [scanStep, if_neg h0, if_neg hn, hf] at h; exact absurd h (by simp)
        | some wc =>
          by_cases hov : maxW < w + wc
          · cases bp with
            | some b' =>
              simp only [scanStep, if_neg h0, if_neg hn, hf] at h; simp [hov] at h
            | none =>
              exact ⟨[], (c, brk), rest, rfl, by simp, rfl, h0, hn,
                ⟨wc, hf, by simpa [endW] using hov⟩, rfl⟩
          · simp only [scanStep, if_neg h0, if_neg hn, hf] at h
            simp only [if_neg hov] at h
            obtain ⟨x, e, r, hl, hx0, hsc, he0, hen, hovr, hbp⟩ :=
              ih (cursor + 1) (w + wc) _ h
            refine ⟨(c, brk) :: x, e, r, by simp [hl], ?_, ?_, he0, hen, ?_, ?_⟩
            · intro hmem
              simp only [List.map_cons, List.mem_cons] at hmem
              rcases hmem with h | h
              · exact h0 h.symm
              · exact hx0 h
            · simp [scanOk, h0, hn, hf, Nat.not_lt.mp hov, hsc]
            · simpa [endW, hn, hf] using hovr
            · simpa [lastBp, hn] using hbp

/-- Inversion of a `missing` outcome: the offending character is in the sequence, is neither
null nor newline, and has no width. -/
theorem scanStep_missing_inv (font : Char → Option Nat) (maxW : Nat) (l : List Entry) :
    ∀ (cursor w : Nat) (bp : Option Nat) (c : Char),
      scanStep font maxW l cursor w bp = .missing c →
      c ∈ l.map Prod.fst ∧ font c = none ∧ c ≠ '\x00' ∧ c ≠ '\n' := by
  induction l with
  | nil => intro cursor w bp c h; simp [scanStep] at h
  | cons e0 rest ih =>
    obtain ⟨c0, brk⟩ := e0
    intro cursor w bp c h
    by_cases h0 : c0 = '\x00'
    · simp [scanStep, h0] at h
    · by_cases hn : c0 = '\n'
      · simp only [scanStep, if_neg h0, if_pos hn] at h
        obtain ⟨hm, hf, hc0, hcn⟩ := ih (cursor + 1) 0 bp c h
        exact ⟨by simp [hm], hf, hc0, hcn⟩
      · cases hf : font c0 with
        | none =>
          simp only [scanStep, if_neg h0, if_neg hn, hf] at h
          cases h
          exact ⟨by simp, hf, h0, hn⟩
        | some wc =>
          by_cases hov : maxW < w + wc
          · cases bp <;> (simp only [scanStep, if_neg h0, if_neg hn, hf] at h; simp [hov] at h)
          · simp only [scanStep, if_neg h0, if_neg hn, hf] at h
            simp only [if_neg hov] at h
            obtain ⟨hm, hfc, hc0, hcn⟩ := ih (cursor + 1) (w + wc) _ c h
            exact ⟨by simp [hm], hfc, hc0, hcn⟩

/-- A fully processed null-free block can be cut off the front of a pass: the pass continues
on the remainder with the advanced cursor, accumulated width, and recorded break point. -/
theorem scanStep_append (font : Char → Option Nat) (maxW : Nat) (x : List Entry) :
    ∀ (r : List Entry) (cursor w : Nat) (bp : Option Nat),
      '\x00' ∉ x.map Prod.fst → scanOk font maxW (x.map Prod.fst) w = true →
      scanStep font maxW (x ++ r) cursor w bp =
        scanStep font maxW r (cursor + x.length) (endW font (x.map Prod.fst) w)
          (lastBp x cursor bp) := by
  induction x with
  | nil => intro r cursor w bp _ _; simp [endW, lastBp]
  | cons e0 rest ih =>
    obtain ⟨c, brk⟩ := e0
    intro r cursor w bp hx0 hsc
    have h0 : c ≠ '\x00' := by
      intro hc; exact hx0 (by simp [hc])
    have hx0' : '\x00' ∉ rest.map Prod.fst := by
      intro hm; exact hx0 (by simp [hm])
    have harith : cursor + 1 + rest.length = cursor + (rest.length + 1) := by omega
    by_cases hn : c = '\n'
    · subst hn
      have hsc' : scanOk font maxW (rest.map Prod.fst) 0 = true := by
        simpa [scanOk, h0] using hsc
      calc scanStep font maxW (('\n', brk) :: rest ++ r) cursor w bp
          = scanStep font maxW (rest ++ r) (cursor + 1) 0 bp := by
            simp [scanStep, h0]
        _ = scanStep font maxW r (cursor + 1 + rest.length)
              (endW font (List.map Prod.fst rest) 0) (lastBp rest (cursor + 1) bp) :=
            ih r (cursor + 1) 0 bp hx0' hsc'
        _ = scanStep font maxW r (cursor + (('\n', brk) :: rest).length)
              (endW font (List.map Prod.fst (('\n', brk) :: rest)) w)
              (lastBp (('\n', brk) :: rest) cursor bp) := by
            rw [harith]; simp [endW, lastBp]
    · rcases hf : font c with _ | wc
      · simp [scanOk, h0, hn, hf] at hsc
      · have hle : w + wc ≤ maxW := by
          by_contra hcon
          simp [scanOk, h0, hn, hf, decide_eq_true_eq] at hsc
          exact hcon (by simpa using hsc.1)
        have hsc' : scanOk font maxW (rest.map Prod.fst) (w + wc) = true := by
          simpa [scanOk, h0, hn, hf, decide_eq_true_eq, hle] using hsc
        calc scanStep font maxW ((c, brk) :: rest ++ r) cursor w bp
            = scanStep font maxW (rest ++ r) (cursor + 1) (w + wc)
                (if brk.isSome && cursor != 0 then some cursor else bp) := by
              simp [scanStep, h0, hn, hf, Nat.not_lt.mpr hle]
          _ = scanStep font maxW r (cursor + 1 + rest.length)
                (endW font (List.map Prod.fst rest) (w + wc))
                (lastBp rest (cursor + 1)
                  (if brk.isSome && cursor != 0 then some cursor else bp)) :=
              ih r (cursor + 1) (w + wc) _ hx0' hsc'
          _ = scanStep font maxW r (cursor + ((c, brk) :: rest).length)
                (endW font (List.map Prod.fst ((c, brk) :: rest)) w)
                (lastBp ((c, brk) :: rest) cursor bp) := by
              rw [harith]; simp [endW, lastBp, hn, hf]

/-- Accumulated width over a concatenation. -/
theorem endW_append (font : Char → Option Nat) (a : List Char) :
    ∀ (b : List Char) (w : Nat),
      endW font (a ++ b) w = endW font b (endW font a w) := by
  induction a with
  | nil => intro b w; simp [endW]
  | cons c rest ih =>
    intro b w
    by_cases hn : c = '\n' <;> simp [endW, hn, ih]

/-- A pass over a concatenation whose first part is null-free succeeds exactly when the pass
over each part does, the second starting from the first's accumulated width. -/
theorem scanOk_append (font : Char → Option Nat) (maxW : Nat) (a : List Char) :
    ∀ (b : List Char) (w : Nat), '\x00' ∉ a →
      scanOk font maxW (a ++ b) w =
        (scanOk font maxW a w && scanOk font maxW b (endW font a w)) := by
  induction a with
  | nil => intro b w _; simp [scanOk, endW]
  | cons c rest ih =>
    intro b w ha
    have h0 : c ≠ '\x00' := fun hc => ha (by simp [hc])
    have ha' : '\x00' ∉ rest := fun hm => ha (by simp [hm])
    by_cases hn : c = '\n'
    · simp [scanOk, endW, h0, hn, ih _ _ ha']
    · rcases hf : font c with _ | wc
      · simp [scanOk, h0, hn, hf]
      · by_cases hle : w + wc ≤ maxW
        · simp [scanOk, endW, h0, hn, hf, hle, ih _ _ ha']
        · simp [scanOk, h0, hn, hf, hle]

/-- A successful pass stays successful on any (left) truncation. -/
theorem scanOk_take (font : Char → Option Nat) (maxW : Nat) (l : List Char) :
    ∀ (n w : Nat), scanOk font maxW l w = true → scanOk font maxW (l.take n) w = true := by
  induction l with
  | nil => intro n w _; simp [scanOk]
  | cons c rest ih =>
    intro n w h
    cases n with
    | zero => simp [scanOk]
    | succ n =>
      rw [List.take_succ_cons]
      by_cases h0 : c = '\x00'
      · simp [scanOk, h0]
      · by_cases hn : c = '\n'
        · have h' := (by simpa [scanOk, h0, hn] using h :
            scanOk font maxW rest 0 = true)
          simpa [scanOk, h0, hn] using ih n 0 h'
        · rcases hf : font c with _ | wc
          · simp [scanOk, h0, hn, hf] at h
          · have hle : w + wc ≤ maxW := by
              by_contra hcon
              simp [scanOk, h0, hn, hf, decide_eq_true_eq] at h
              exact hcon (by simpa using h.1)
            have h' : scanOk font maxW rest (w + wc) = true := by
              simpa [scanOk, h0, hn, hf, decide_eq_true_eq, hle] using h
            simp [scanOk, h0, hn, hf, hle, ih n (w + wc) h']

/-- A recorded break point is never dropped by further processing. -/
theorem lastBp_some (x : List Entry) :
    ∀ (cursor v : Nat), ∃ v', lastBp x cursor (some v) = some v' := by
  induction x with
  | nil => intro cursor v; exact ⟨v, rfl⟩
  | cons e0 rest ih =>
    obtain ⟨c, brk⟩ := e0
    intro cursor v
    by_cases hn : c = '\n'
    · simpa [lastBp, hn] using ih (cursor + 1) v
    · by_cases hb : (brk.isSome && cursor != 0) = true
      · simpa [lastBp, hn, hb] using ih (cursor + 1) cursor
      · simpa [lastBp, hn, hb] using ih (cursor + 1) v

/-- If no break point is recorded over `x`, none was passed in. -/
theorem lastBp_none_start (x : List Entry) :
    ∀ (cursor : Nat) (bp : Option Nat), lastBp x cursor bp = none → bp = none := by
  induction x with
  | nil => intro cursor bp h; exact h
  | cons e0 rest ih =>
    obtain ⟨c, brk⟩ := e0
    intro cursor bp h
    by_cases hn : c = '\n'
    · exact ih (cursor + 1) bp (by simpa [lastBp, hn] using h)
    · have h' := ih (cursor + 1) _ (by simpa [lastBp, hn] using h)
      split at h'
      · exact absurd h' (by simp)
      · exact h'

/-- Bounds on a recorded break point: it is the incoming one or a nonzero cursor position
inside the processed block. -/
theorem lastBp_some_range (x : List Entry) :
    ∀ (cursor v : Nat) (bp : Option Nat), lastBp x cursor bp = some v →
      bp = some v ∨ (v ≠ 0 ∧ cursor ≤ v ∧ v < cursor + x.length) := by
  induction x with
  | nil => intro cursor v bp h; exact Or.inl h
  | cons e0 rest ih =>
    obtain ⟨c, brk⟩ := e0
    intro cursor v bp h
    by_cases hn : c = '\n'
    · rcases ih (cursor + 1) v bp (by simpa [lastBp, hn] using h) with h' | ⟨hv, hle, hlt⟩
      · exact Or.inl h'
      · exact Or.inr ⟨hv, by omega, by simp only [List.length_cons]; omega⟩
    · by_cases hb : (brk.isSome && cursor != 0) = true
      · rcases ih (cursor + 1) v _ (by simpa [lastBp, hn, hb] using h) with h' | ⟨hv, hle, hlt⟩
        · cases h'
          have hc0 : cursor ≠ 0 := by
            have hb' : brk.isSome = true ∧ cursor ≠ 0 := by simpa using hb
            exact hb'.2
          exact Or.inr ⟨hc0, Nat.le_refl _, by simp only [List.length_cons]; omega⟩
        · exact Or.inr ⟨hv, by omega, by simp only [List.length_cons]; omega⟩
      · rcases ih (cursor + 1) v bp (by simpa [lastBp, hn, hb] using h) with h' | ⟨hv, hle, hlt⟩
        · exact Or.inl h'
        · exact Or.inr ⟨hv, by omega, by simp only [List.length_cons]; omega⟩

/-- `getD` at the junction of an append. -/
theorem getD_append_at {α : Type} (x : List α) :
    ∀ (e : α) (r : List α) (d : α), (x ++ e :: r).getD x.length d = e := by
  induction x with
  | nil => intro e r d; rfl
  | cons a x ih => intro e r d; simpa using ih e r d

/-- `getD` inside the left part of an append. -/
theorem getD_append_lt {α : Type} (x : List α) :
    ∀ (y : List α) (i : Nat) (d : α), i < x.length → (x ++ y).getD i d = x.getD i d := by
  induction x with
  | nil => intro y i d h; simp at h
  | cons a x ih =>
    intro y i d h
    cases i with
    | zero => rfl
    | succ i => simpa using ih y i d (by simpa using h)

/-- Splitting a list at a valid position. -/
theorem list_decomp_at {α : Type} (l : List α) :
    ∀ (j : Nat) (d : α), j < l.length → l = l.take j ++ l.getD j d :: l.drop (j + 1) := by
  induction l with
  | nil => intro j d h; simp at h
  | cons a l ih =>
    intro j d h
    cases j with
    | zero => simp
    | succ j =>
      have := ih j d (by simpa using h)
      simpa using this

/-- If no break point was recorded over `x` starting from `none`, every processed position
other than absolute cursor `0` was a newline or carried no annotation. -/
theorem lastBp_none_positions (x : List Entry) :
    ∀ (cursor : Nat) (bp : Option Nat), lastBp x cursor bp = none →
      ∀ i, i < x.length →
        cursor + i = 0 ∨ (x.getD i (' ', none)).1 = '\n' ∨ (x.getD i (' ', none)).2 = none := by
  induction x with
  | nil => intro cursor bp _ i hi; simp at hi
  | cons e0 rest ih =>
    obtain ⟨c, brk⟩ := e0
    intro cursor bp h i hi
    by_cases hn : c = '\n'
    · cases i with
      | zero => exact Or.inr (Or.inl (by simpa using hn))
      | succ i =>
        have h' := ih (cursor + 1) bp (by simpa [lastBp, hn] using h) i (by simpa using hi)
        rcases h' with h' | h' 
        · omega
        · exact Or.inr (by simpa using h')
    · have hrec := (by simpa [lastBp, hn] using h :
        lastBp rest (cursor + 1) (if brk.isSome && cursor != 0 then some cursor else bp) = none)
      cases i with
      | zero =>
        have hstart := lastBp_none_start rest (cursor + 1) _ hrec
        by_cases hb : (brk.isSome && cursor != 0) = true
        · rw [if_pos hb] at hstart; cases hstart
        · have hb' : ¬ (brk.isSome = true ∧ cursor ≠ 0) := by
            intro ⟨h1, h2⟩
            exact hb (by simp [h1, h2])
          by_cases hbrk : brk.isSome = true
          · have : cursor = 0 := by
              by_contra hcur
              exact hb' ⟨hbrk, hcur⟩
            exact Or.inl (by omega)
          · refine Or.inr (Or.inr ?_)
            simpa [Option.isSome_iff_exists] using
              (by simpa using Option.not_isSome_iff_eq_none.mp (by simpa using hbrk) :
                brk = none)
      | succ i =>
        have h' := ih (cursor + 1) _ hrec i (by simpa using hi)
        rcases h' with h' | h'
        · omega
        · exact Or.inr (by simpa using h')

/-- Conversely: if every processed position other than absolute cursor `0` is a newline or
unannotated, no break point gets recorded over `x` from `none`. -/
theorem lastBp_none_intro (x : List Entry) :
    ∀ (cursor : Nat),
      (∀ i, i < x.length →
        cursor + i = 0 ∨ (x.getD i (' ', none)).1 = '\n' ∨ (x.getD i (' ', none)).2 = none) →
      lastBp x cursor none = none := by
  induction x with
  | nil => intro cursor _; rfl
  | cons e0 rest ih =>
    obtain ⟨c, brk⟩ := e0
    intro cursor hall
    have htail : ∀ i, i < rest.length →
        (cursor + 1) + i = 0 ∨ (rest.getD i (' ', none)).1 = '\n' ∨
          (rest.getD i (' ', none)).2 = none := by
      intro i hi
      have := hall (i + 1) (by simpa using Nat.succ_lt_succ hi)
      rcases this with h | h
      · omega
      · exact Or.inr (by simpa using h)
    by_cases hn : c = '\n'
    · simpa [lastBp, hn] using ih (cursor + 1) htail
    · have h0 := hall 0 (by simp)
      have hcond : ¬ (brk.isSome && cursor != 0) = true := by
        rcases h0 with h | h | h
        · simp [show cursor = 0 by omega]
        · exact absurd (by simpa using h) hn
        · have hb : brk = none := by simpa using h
          simp [hb]
      have hite : (if brk.isSome && cursor != 0 then some cursor else (none : Option Nat))
          = none := by
        simp only [if_neg hcond]
      simp only [lastBp, if_neg hn, hite]
      exact ih (cursor + 1) htail

/-- A top-level pass (cursor `0`, width `0`, no recorded break) that splits does so at a
position strictly inside the sequence and strictly after its first element, and the flushed
block before the split point is null-free and was processed within budget. -/
theorem scanStep_split_top (font : Char → Option Nat) (maxW : Nat) (l : List Entry) (b : Nat)
    (h : scanStep font maxW l 0 0 none = .split b) :
    0 < b ∧ b < l.length ∧ '\x00' ∉ (l.take b).map Prod.fst ∧
      scanOk font maxW ((l.take b).map Prod.fst) 0 = true := by
  obtain ⟨x, e, r, hl, hx0, hsc, _, _, _, hbp⟩ :=
    scanStep_split_inv font maxW l 0 0 none b h
  rcases lastBp_some_range x 0 b none hbp with h' | ⟨hb0, _, hblt⟩
  · cases h'
  have hble : b ≤ x.length := by omega
  have htake : l.take b = x.take b := by
    rw [hl, List.take_append_of_le_length hble]
  constructor
  · omega
  constructor
  · rw [hl]; simp only [List.length_append, List.length_cons]; omega
  constructor
  · rw [htake]
    intro hm
    rw [List.map_take] at hm
    exact hx0 (List.mem_of_mem_take hm)
  · rw [htake, List.map_take]
    exact scanOk_take font maxW _ b 0 hsc

/-- The fuelled loop is fuel-irrelevant once the fuel covers the sequence length: every
split removes at least one element, so `chars.length` rounds always suffice. -/
theorem applyCoreF_fuel (font : Char → Option Nat) (maxW : Nat) :
    ∀ (f1 : Nat) (chars : List Entry) (out : List Char) (f2 : Nat),
      chars.length ≤ f1 → chars.length ≤ f2 →
      applyCoreF font maxW f1 chars out = applyCoreF font maxW f2 chars out := by
  intro f1
  induction f1 with
  | zero =>
    intro chars out f2 h1 h2
    have hnil : chars = [] := List.length_eq_zero.mp (Nat.le_zero.mp h1)
    subst hnil
    cases f2 with
    | zero => rfl
    | succ f2 => simp [applyCoreF, scanStep]
  | succ f1 ih =>
    intro chars out f2 h1 h2
    cases chars with
    | nil =>
      cases f2 with
      | zero => simp [applyCoreF, scanStep]
      | succ f2 => simp [applyCoreF, scanStep]
    | cons e rest =>
      cases f2 with
      | zero => simp at h2
      | succ f2 =>
        cases hs : scanStep font maxW (e :: rest) 0 0 none with
        | missing c => simp [applyCoreF, hs]
        | noBreak => simp [applyCoreF, hs]
        | done => simp [applyCoreF, hs]
        | split b =>
          obtain ⟨hb0, hblt, _, _⟩ := scanStep_split_top font maxW (e :: rest) b hs
          have hdl : ((e :: rest).drop b).length = rest.length + 1 - b := by
            simp [List.length_drop]
          have hlt' : b < rest.length + 1 := by simpa using hblt
          have h1' : rest.length + 1 ≤ f1 + 1 := by simpa using h1
          have h2' : rest.length + 1 ≤ f2 + 1 := by simpa using h2
          have hlen1 : ((e :: rest).drop b).length ≤ f1 := by rw [hdl]; omega
          have hlen2 : ((e :: rest).drop b).length ≤ f2 := by rw [hdl]; omega
          simp only [applyCoreF, hs]
          exact ih _ _ f2 hlen1 hlen2

/-- When the pass completes without splitting, any amount of fuel returns the output plus the
remaining characters. -/
theorem applyCoreF_done (font : Char → Option Nat) (maxW : Nat) (chars : List Entry)
    (out : List Char) (h : scanStep font maxW chars 0 0 none = .done) :
    ∀ fuel, applyCoreF font maxW fuel chars out = .ok (out ++ chars.map Prod.fst) := by
  intro fuel
  cases fuel with
  | zero => rfl
  | succ fuel => simp [applyCoreF, h]

/-- The positional characterization of the no-legal-break outcome of a pass: some position
overflows the budget with no safe break recorded strictly before it. -/
theorem scanStep_noBreak_iff (font : Char → Option Nat) (maxW : Nat) (l : List Entry) :
    scanStep font maxW l 0 0 none = .noBreak ↔ noBreakOverflow font maxW l = true := by
  constructor
  · intro h
    obtain ⟨x, e, r, hl, hx0, hsc, he0, hen, ⟨wc, hwc, hov⟩, hbp⟩ :=
      scanStep_noBreak_inv font maxW l 0 0 none h
    subst hl
    have hjlt : x.length < (x ++ e :: r).length := by
      simp only [List.length_append, List.length_cons]; omega
    rw [noBreakOverflow, List.any_eq_true]
    refine ⟨x.length, List.mem_range.mpr hjlt, ?_⟩
    rw [Bool.and_eq_true]
    constructor
    · rw [overflowCondAt]
      simp only [List.take_left, getD_append_at]
      rw [hwc]
      simp only [Bool.and_eq_true, List.all_eq_true, bne_iff_ne, ne_eq,
        decide_eq_true_eq]
      refine ⟨⟨⟨⟨fun a ha => fun heq => hx0 (heq ▸ ha), hsc⟩, he0⟩, hen⟩, hov⟩
    · rw [noRecordedBefore]
      simp only [List.all_eq_true, List.mem_range]
      intro i hi
      have hpos := lastBp_none_positions x 0 none hbp i hi
      rw [getD_append_lt x (e :: r) i _ hi]
      rcases hpos with h' | h' | h'
      · simp [show i = 0 by omega]
      · rw [List.getD_eq_getElem?_getD] at h'
        simp [h']
      · rw [List.getD_eq_getElem?_getD] at h'
        simp [h']
  · intro h
    rw [noBreakOverflow, List.any_eq_true] at h
    obtain ⟨j, hjmem, hj⟩ := h
    rw [Bool.and_eq_true] at hj
    obtain ⟨hoc, hnr⟩ := hj
    have hjlt : j < l.length := List.mem_range.mp hjmem
    rw [overflowCondAt] at hoc
    rcases hwc : font (l.getD j (' ', none)).1 with _ | wc
    · rw [hwc] at hoc; simp at hoc
    · rw [hwc] at hoc
      simp only [Bool.and_eq_true, List.all_eq_true, bne_iff_ne, ne_eq,
        decide_eq_true_eq] at hoc
      obtain ⟨⟨⟨⟨hnull, hsc⟩, he0⟩, hen⟩, hov⟩ := hoc
      rw [noRecordedBefore] at hnr
      simp only [List.all_eq_true, List.mem_range] at hnr
      have hx0 : '\x00' ∉ (l.take j).map Prod.fst := fun hm => hnull _ hm rfl
      have hlenj : (l.take j).length = j := by
        simp [Nat.le_of_lt hjlt]
      have hbp : lastBp (l.take j) 0 none = none := by
        apply lastBp_none_intro
        intro i hi
        rw [hlenj] at hi
        have hthis := hnr i hi
        have hsplit : (i = 0 ∨ (l[i]?.getD (' ', none)).1 = '\n') ∨
            (l[i]?.getD (' ', none)).2 = none := by simpa using hthis
        rcases hsplit with (h' | h') | h'
        · omega
        · refine Or.inr (Or.inl ?_)
          rw [List.getD_eq_getElem?_getD, List.getElem?_take, if_pos hi]
          exact h'
        · refine Or.inr (Or.inr ?_)
          rw [List.getD_eq_getElem?_getD, List.getElem?_take, if_pos hi]
          exact h'
      have hdec := list_decomp_at l j (' ', none) hjlt
      conv_lhs => rw [hdec]
      rw [scanStep_append font maxW (l.take j) _ 0 0 none hx0 hsc]
      rw [hbp, hlenj]
      have hov2 : maxW < endW font (List.take j (List.map Prod.fst l)) 0 + wc := by
        rw [← List.map_take]; exact hov
      rw [scanStep, if_neg he0, if_neg hen, hwc]
      simp [hov, hov2]

/-- Inversion for `Reaches`. -/
theorem Reaches_cases (font : Char → Option Nat) (maxW : Nat) {l l' : List Entry}
    (h : Reaches font maxW l l') :
    l' = l ∨ ∃ b, scanStep font maxW l 0 0 none = .split b ∧
      Reaches font maxW (l.drop b) l' := by
  cases h with
  | refl _ => exact Or.inl rfl
  | step _ b _ hs hr => exact Or.inr ⟨b, hs, hr⟩

/-- The loop fails with `NoLegalLinebreakOpportunity` exactly when some working sequence it
reaches has an overflow position with no safe break recorded before it. -/
theorem applyCoreF_noLegal_iff (font : Char → Option Nat) (maxW : Nat) :
    ∀ (fuel : Nat) (chars : List Entry) (out : List Char), chars.length ≤ fuel →
      (applyCoreF font maxW fuel chars out = .error .NoLegalLinebreakOpportunity ↔
        ∃ l, Reaches font maxW chars l ∧ noBreakOverflow font maxW l = true) := by
  intro fuel
  induction fuel with
  | zero =>
    intro chars out h1
    have hnil : chars = [] := List.length_eq_zero.mp (Nat.le_zero.mp h1)
    subst hnil
    constructor
    · intro h; simp [applyCoreF] at h
    · rintro ⟨l, hr, hnb⟩
      rcases Reaches_cases font maxW hr with rfl | ⟨b, hs, _⟩
      · rw [← scanStep_noBreak_iff] at hnb
        simp [scanStep] at hnb
      · simp [scanStep] at hs
  | succ fuel ih =>
    intro chars out h1
    cases hs : scanStep font maxW chars 0 0 none with
    | done =>
      constructor
      · intro h
        rw [applyCoreF_done font maxW chars out hs] at h
        cases h
      · rintro ⟨l, hr, hnb⟩
        rcases Reaches_cases font maxW hr with rfl | ⟨b, hs', _⟩
        · rw [← scanStep_noBreak_iff, hs] at hnb; cases hnb
        · rw [hs] at hs'; cases hs'
    | missing c =>
      constructor
      · intro h; simp [applyCoreF, hs] at h
      · rintro ⟨l, hr, hnb⟩
        rcases Reaches_cases font maxW hr with rfl | ⟨b, hs', _⟩
        · rw [← scanStep_noBreak_iff, hs] at hnb; cases hnb
        · rw [hs] at hs'; cases hs'
    | noBreak =>
      constructor
      · intro _
        exact ⟨chars, Reaches.refl chars, (scanStep_noBreak_iff font maxW chars).mp hs⟩
      · intro _; simp [applyCoreF, hs]
    | split b =>
      obtain ⟨hb0, hblt, _, _⟩ := scanStep_split_top font maxW chars b hs
      have hdl : (chars.drop b).length = chars.length - b := by simp
      have hlen : (chars.drop b).length ≤ fuel := by rw [hdl]; omega
      have hstep : applyCoreF font maxW (fuel + 1) chars out =
          applyCoreF font maxW fuel (chars.drop b)
            (out ++ (chars.take b).map Prod.fst ++ ['\n']) := by
        simp [applyCoreF, hs]
      rw [hstep, ih (chars.drop b) _ hlen]
      constructor
      · rintro ⟨l, hr, hnb⟩; exact ⟨l, Reaches.step chars b l hs hr, hnb⟩
      · rintro ⟨l, hr, hnb⟩
        rcases Reaches_cases font maxW hr with rfl | ⟨b', hs', hr'⟩
        · rw [← scanStep_noBreak_iff, hs] at hnb; cases hnb
        · rw [hs] at hs'
          injection hs' with hb
          subst hb
          exact ⟨l, hr', hnb⟩

/-- Characters of a successful output come from the accumulated output, from the working
sequence, or are the inserted newlines. -/
theorem applyCoreF_ok_chars (font : Char → Option Nat) (maxW : Nat) :
    ∀ (fuel : Nat) (chars : List Entry) (out : List Char) (w : List Char),
      applyCoreF font maxW fuel chars out = .ok w →
      ∀ c ∈ w, c ∈ out ∨ c ∈ chars.map Prod.fst ∨ c = '\n' := by
  intro fuel
  induction fuel with
  | zero =>
    intro chars out w h c hc
    have hw : out ++ chars.map Prod.fst = w := by simpa [applyCoreF] using h
    subst hw
    rcases List.mem_append.mp hc with h' | h'
    · exact Or.inl h'
    · exact Or.inr (Or.inl h')
  | succ fuel ih =>
    intro chars out w h c hc
    cases hs : scanStep font maxW chars 0 0 none with
    | done =>
      rw [applyCoreF_done font maxW chars out hs] at h
      have hw : out ++ chars.map Prod.fst = w := by simpa using h
      subst hw
      rcases List.mem_append.mp hc with h' | h'
      · exact Or.inl h'
      · exact Or.inr (Or.inl h')
    | missing c0 => simp [applyCoreF, hs] at h
    | noBreak => simp [applyCoreF, hs] at h
    | split b =>
      have h' : applyCoreF font maxW fuel (chars.drop b)
          (out ++ (chars.take b).map Prod.fst ++ ['\n']) = .ok w := by
        simpa [applyCoreF, hs] using h
      rcases ih _ _ w h' c hc with hmem | hmem | hmem
      · rcases List.mem_append.mp hmem with hmem' | hmem'
        · rcases List.mem_append.mp hmem' with hx | hx
          · exact Or.inl hx
          · refine Or.inr (Or.inl ?_)
            rw [List.map_take] at hx
            exact List.mem_of_mem_take hx
        · exact Or.inr (Or.inr (by simpa using hmem'))
      · refine Or.inr (Or.inl ?_)
        rw [List.map_drop] at hmem
        exact List.mem_of_mem_drop hmem
      · exact Or.inr (Or.inr hmem)

/-- Every successful output scans within budget from a clean start: whatever the wrapper
returns, a fresh pass over it (up to its first null) never exceeds the budget and never
misses a width. -/
theorem applyCoreF_ok_scanOk (font : Char → Option Nat) (maxW : Nat) :
    ∀ (fuel : Nat) (chars : List Entry) (out : List Char) (w : List Char),
      chars.length ≤ fuel → '\x00' ∉ out → scanOk font maxW out 0 = true →
      endW font out 0 = 0 → applyCoreF font maxW fuel chars out = .ok w →
      scanOk font maxW w 0 = true := by
  intro fuel
  induction fuel with
  | zero =>
    intro chars out w h1 ho0 hos hoe h
    have hnil : chars = [] := List.length_eq_zero.mp (Nat.le_zero.mp h1)
    subst hnil
    have hw : out ++ ([] : List Entry).map Prod.fst = w := by simpa [applyCoreF] using h
    rw [← hw]
    simpa using hos
  | succ fuel ih =>
    intro chars out w h1 ho0 hos hoe h
    cases hs : scanStep font maxW chars 0 0 none with
    | done =>
      rw [applyCoreF_done font maxW chars out hs] at h
      have hw : out ++ chars.map Prod.fst = w := by simpa using h
      rw [← hw, scanOk_append font maxW out _ 0 ho0, hoe]
      have hdone := (scanStep_done_iff font maxW chars 0 0 none).mp hs
      simp [hos, hdone]
    | missing c0 => simp [applyCoreF, hs] at h
    | noBreak => simp [applyCoreF, hs] at h
    | split b =>
      obtain ⟨hb0, hblt, hpre0, hpres⟩ := scanStep_split_top font maxW chars b hs
      have hout0 : '\x00' ∉ out ++ (chars.take b).map Prod.fst ++ ['\n'] := by
        intro hm
        rcases List.mem_append.mp hm with hm' | hm'
        · rcases List.mem_append.mp hm' with hx | hx
          · exact ho0 hx
          · exact hpre0 hx
        · simp at hm'
      have hnl : scanOk font maxW ['\n'] (endW font ((chars.take b).map Prod.fst) 0)
          = true := by
        simp [scanOk]
      have houts : scanOk font maxW (out ++ (chars.take b).map Prod.fst ++ ['\n']) 0
          = true := by
        have hpres' : scanOk font maxW (List.take b (List.map Prod.fst chars)) 0 = true := by
          rw [← List.map_take]; exact hpres
        have hnl' : scanOk font maxW ['\n']
            (endW font (List.take b (List.map Prod.fst chars)) 0) = true := by
          rw [← List.map_take]; exact hnl
        rw [List.append_assoc, scanOk_append font maxW out _ 0 ho0, hoe,
          scanOk_append font maxW _ _ 0 hpre0]
        simp [hos, hpres, hnl, hpres', hnl']
      have houte : endW font (out ++ (chars.take b).map Prod.fst ++ ['\n']) 0 = 0 := by
        rw [List.append_assoc, endW_append, endW_append]
        simp [endW]
      have hdl : (chars.drop b).length = chars.length - b := by simp
      have hlen : (chars.drop b).length ≤ fuel := by rw [hdl]; omega
      have h' : applyCoreF font maxW fuel (chars.drop b)
          (out ++ (chars.take b).map Prod.fst ++ ['\n']) = .ok w := by
        simpa [applyCoreF, hs] using h
      exact ih _ _ w hlen (by simpa using hout0) (by simpa using houts)
        (by simpa using houte) h'

/-- `linesOf` never returns the empty list. -/
theorem linesOf_ne_nil (l : List Char) : linesOf l ≠ [] := by
  cases l with
  | nil => simp [linesOf]
  | cons c rest => by_cases hn : c = '\n' <;> simp [linesOf, hn]

/-- Membership in a nonempty list through its default head and tail. -/
theorem mem_iff_headD_tail {α : Type} (L : List α) (d : α) (hL : L ≠ []) (x : α) :
    x ∈ L ↔ x = L.headD d ∨ x ∈ L.tail := by
  cases L with
  | nil => exact absurd rfl hL
  | cons a L' => simp

/-- Width of a line starting with a character. -/
theorem lineWidth_cons (font : Char → Option Nat) (c : Char) (l : List Char) :
    lineWidth font (c :: l) = (font c).getD 0 + lineWidth font l := by
  simp [lineWidth]

/-- A pass that stays within budget keeps every line of the scanned text within budget
(the first line offset by the incoming accumulated width). -/
theorem scanOk_fits (font : Char → Option Nat) (maxW : Nat) (l : List Char) :
    ∀ (w : Nat), '\x00' ∉ l → scanOk font maxW l w = true → w ≤ maxW →
      w + lineWidth font ((linesOf l).headD []) ≤ maxW ∧
        ∀ seg ∈ (linesOf l).tail, lineWidth font seg ≤ maxW := by
  induction l with
  | nil =>
    intro w _ _ hw
    constructor
    · simpa [linesOf, lineWidth] using hw
    · simp [linesOf]
  | cons c rest ih =>
    intro w h0mem hsc hw
    have h0 : c ≠ '\x00' := fun hc => h0mem (by simp [hc])
    have hrest : '\x00' ∉ rest := fun hm => h0mem (by simp [hm])
    by_cases hn : c = '\n'
    · subst hn
      have hsc' : scanOk font maxW rest 0 = true := by simpa [scanOk, h0] using hsc
      obtain ⟨hh, ht⟩ := ih 0 hrest hsc' (Nat.zero_le _)
      constructor
      · simpa [linesOf, lineWidth] using hw
      · simp only [linesOf, if_pos rfl, List.tail_cons]
        intro seg hseg
        rcases (mem_iff_headD_tail (linesOf rest) [] (linesOf_ne_nil rest) seg).mp hseg
          with rfl | hseg'
        · omega
        · exact ht seg hseg'
    · rcases hf : font c with _ | wc
      · simp [scanOk, h0, hn, hf] at hsc
      · have hle : w + wc ≤ maxW := by
          by_contra hcon
          simp [scanOk, h0, hn, hf, decide_eq_true_eq] at hsc
          exact hcon (by simpa using hsc.1)
        have hsc' : scanOk font maxW rest (w + wc) = true := by
          simpa [scanOk, h0, hn, hf, decide_eq_true_eq, hle] using hsc
        obtain ⟨hh, ht⟩ := ih (w + wc) hrest hsc' hle
        constructor
        · simp only [linesOf, if_neg hn, List.headD_cons, lineWidth_cons, hf,
            Option.getD_some]
          omega
        · simpa only [linesOf, if_neg hn, List.tail_cons] using ht

/-- Conversely: over a null-free, fully covered text whose every line fits (the first offset
by the incoming width), a pass stays within budget. -/
theorem fits_scanOk (font : Char → Option Nat) (maxW : Nat) (l : List Char) :
    ∀ (w : Nat), '\x00' ∉ l → (∀ c ∈ l, (font c).isSome) →
      w + lineWidth font ((linesOf l).headD []) ≤ maxW →
      (∀ seg ∈ (linesOf l).tail, lineWidth font seg ≤ maxW) →
      scanOk font maxW l w = true := by
  induction l with
  | nil => intro w _ _ _ _; simp [scanOk]
  | cons c rest ih =>
    intro w h0mem hcov hh ht
    have h0 : c ≠ '\x00' := fun hc => h0mem (by simp [hc])
    have hrest : '\x00' ∉ rest := fun hm => h0mem (by simp [hm])
    have hcov' : ∀ a ∈ rest, (font a).isSome := fun a ha => hcov a (by simp [ha])
    by_cases hn : c = '\n'
    · subst hn
      rw [linesOf] at ht
      simp only [if_pos rfl, List.tail_cons] at ht
      have hh' : 0 + lineWidth font ((linesOf rest).headD []) ≤ maxW := by
        have : (linesOf rest).headD [] ∈ linesOf rest := by
          rcases hlr : linesOf rest with _ | ⟨hd, tl⟩
          · exact absurd hlr (linesOf_ne_nil rest)
          · simp
        simpa using ht _ this
      have ht' : ∀ seg ∈ (linesOf rest).tail, lineWidth font seg ≤ maxW := by
        intro seg hseg
        refine ht seg ?_
        rcases hlr : linesOf rest with _ | ⟨hd, tl⟩
        · exact absurd hlr (linesOf_ne_nil rest)
        · rw [hlr] at hseg; simp at hseg; simp [hseg]
      simpa [scanOk, h0] using ih 0 hrest hcov' hh' ht'
    · rcases hf : font c with _ | wc
      · have := hcov c (by simp)
        simp [hf] at this
      · rw [linesOf] at hh ht
        simp only [if_neg hn, List.headD_cons, lineWidth_cons, hf, Option.getD_some] at hh
        simp only [if_neg hn, List.tail_cons] at ht
        have hle : w + wc ≤ maxW := by omega
        have hh' : (w + wc) + lineWidth font ((linesOf rest).headD []) ≤ maxW := by omega
        simp [scanOk, h0, hn, hf, hle]
        exact ih (w + wc) hrest hcov' hh' ht

/-- A character scanned within budget cannot be wider than the budget. -/
theorem scanOk_wide (font : Char → Option Nat) (maxW : Nat) (l : List Char) :
    ∀ (w : Nat) (c : Char) (wc : Nat), scanOk font maxW l w = true → '\x00' ∉ l →
      c ∈ l → c ≠ '\n' → font c = some wc → wc ≤ maxW := by
  induction l with
  | nil => intro w c wc _ _ hc; simp at hc
  | cons a rest ih =>
    intro w c wc hsc h0mem hc hcn hfc
    have h0 : a ≠ '\x00' := fun hc' => h0mem (by simp [hc'])
    have hrest : '\x00' ∉ rest := fun hm => h0mem (by simp [hm])
    by_cases hn : a = '\n'
    · subst hn
      have hsc' : scanOk font maxW rest 0 = true := by simpa [scanOk, h0] using hsc
      rcases List.mem_cons.mp hc with rfl | hc'
      · exact absurd rfl hcn
      · exact ih 0 c wc hsc' hrest hc' hcn hfc
    · rcases hf : font a with _ | wa
      · simp [scanOk, h0, hn, hf] at hsc
      · have hle : w + wa ≤ maxW := by
          by_contra hcon
          simp [scanOk, h0, hn, hf, decide_eq_true_eq] at hsc
          exact hcon (by simpa using hsc.1)
        have hsc' : scanOk font maxW rest (w + wa) = true := by
          simpa [scanOk, h0, hn, hf, decide_eq_true_eq, hle] using hsc
        rcases List.mem_cons.mp hc with rfl | hc'
        · rw [hf] at hfc
          injection hfc with hwa
          omega
        · exact ih (w + wa) c wc hsc' hrest hc' hcn hfc

/-- If some character wider than the budget sits in a null-free, fully covered working
sequence, the loop inevitably fails with `NoLegalLinebreakOpportunity`: no pass containing
it can complete, and every split keeps it in the suffix. -/
theorem applyCoreF_wide (font : Char → Option Nat) (maxW : Nat) (c : Char) (wc : Nat)
    (hcn : c ≠ '\n') (hfc : font c = some wc) (hwide : maxW < wc) :
    ∀ (fuel : Nat) (chars : List Entry) (out : List Char),
      chars.length ≤ fuel → '\x00' ∉ chars.map Prod.fst →
      (∀ ch ∈ chars.map Prod.fst, ch ≠ '\n' → (font ch).isSome) →
      c ∈ chars.map Prod.fst →
      applyCoreF font maxW fuel chars out = .error .NoLegalLinebreakOpportunity := by
  intro fuel
  induction fuel with
  | zero =>
    intro chars out h1 _ _ hc
    have hnil : chars = [] := List.length_eq_zero.mp (Nat.le_zero.mp h1)
    subst hnil; simp at hc
  | succ fuel ih =>
    intro chars out h1 h0 hcov hc
    cases hs : scanStep font maxW chars 0 0 none with
    | done =>
      have hsok := (scanStep_done_iff font maxW chars 0 0 none).mp hs
      have := scanOk_wide font maxW (chars.map Prod.fst) 0 c wc hsok h0 hc hcn hfc
      omega
    | missing c0 =>
      obtain ⟨hm, hf0, _, hn0⟩ := scanStep_missing_inv font maxW chars 0 0 none c0 hs
      have := hcov c0 hm hn0
      simp [hf0] at this
    | noBreak => simp [applyCoreF, hs]
    | split b =>
      obtain ⟨hb0, hblt, hpre0, hpres⟩ := scanStep_split_top font maxW chars b hs
      rcases List.mem_append.mp
          (by rw [List.take_append_drop b (chars.map Prod.fst)]; exact hc) with hcl | hcr
      · have hpres' : scanOk font maxW ((chars.map Prod.fst).take b) 0 = true := by
          rw [← List.map_take]; exact hpres
        have hpre0' : '\x00' ∉ (chars.map Prod.fst).take b := by
          rw [← List.map_take]; exact hpre0
        have := scanOk_wide font maxW _ 0 c wc hpres' hpre0' hcl hcn hfc
        omega
      · have hcdrop : c ∈ (chars.drop b).map Prod.fst := by
          rw [List.map_drop]; exact hcr
        have hdl : (chars.drop b).length = chars.length - b := by simp
        have hlen : (chars.drop b).length ≤ fuel := by rw [hdl]; omega
        have h0' : '\x00' ∉ (chars.drop b).map Prod.fst := by
          rw [List.map_drop]
          intro hm
          exact h0 (List.mem_of_mem_drop hm)
        have hcov' : ∀ ch ∈ (chars.drop b).map Prod.fst, ch ≠ '\n' → (font ch).isSome := by
          intro ch hm hn
          rw [List.map_drop] at hm
          exact hcov ch (List.mem_of_mem_drop hm) hn
        have := ih (chars.drop b) (out ++ (chars.take b).map Prod.fst ++ ['\n'])
          hlen h0' hcov' hcdrop
        simpa [applyCoreF, hs] using this

/-- A pass never looks past a null character: entries after it are irrelevant. -/
theorem scanStep_null (font : Char → Option Nat) (maxW : Nat) (x : List Entry) :
    ∀ (e : Option BreakOpportunity) (r : List Entry) (cursor w : Nat) (bp : Option Nat),
      scanStep font maxW (x ++ ('\x00', e) :: r) cursor w bp =
        scanStep font maxW x cursor w bp := by
  induction x with
  | nil => intro e r cursor w bp; simp [scanStep]
  | cons e0 rest ih =>
    obtain ⟨c, brk⟩ := e0
    intro e r cursor w bp
    by_cases h0 : c = '\x00'
    · simp [scanStep, h0]
    · by_cases hn : c = '\n'
      · simp only [List.cons_append, scanStep, if_neg h0, if_pos hn]
        exact ih e r (cursor + 1) 0 bp
      · rcases hf : font c with _ | wc
        · simp [scanStep, h0, hn, hf]
        · by_cases hov : maxW < w + wc
          · cases bp <;> simp [scanStep, h0, hn, hf, hov]
          · simp only [List.cons_append, scanStep, if_neg h0, if_neg hn, hf, if_neg hov]
            exact ih e r (cursor + 1) (w + wc) _

/-- Everything from the first null onward is appended to the output verbatim: the loop's
result on `x ++ null :: r` is its result on `x` with the null and the characters after it
appended, whatever they are — they are never measured and never split. -/
theorem applyCoreF_null (font : Char → Option Nat) (maxW : Nat) :
    ∀ (fuel : Nat) (x : List Entry) (e : Option BreakOpportunity) (r : List Entry)
      (out : List Char),
      x.length ≤ fuel → '\x00' ∉ x.map Prod.fst →
      applyCoreF font maxW fuel (x ++ ('\x00', e) :: r) out =
        (applyCoreF font maxW fuel x out).map
          (fun w => w ++ '\x00' :: r.map Prod.fst) := by
  intro fuel
  induction fuel with
  | zero =>
    intro x e r out h1 h0
    have hnil : x = [] := List.length_eq_zero.mp (Nat.le_zero.mp h1)
    subst hnil
    simp [applyCoreF, Except.map]
  | succ fuel ih =>
    intro x e r out h1 h0
    cases hs : scanStep font maxW x 0 0 none with
    | missing c =>
      simp [applyCoreF, scanStep_null font maxW x e r 0 0 none, hs, Except.map]
    | noBreak =>
      simp [applyCoreF, scanStep_null font maxW x e r 0 0 none, hs, Except.map]
    | done =>
      simp [applyCoreF, scanStep_null font maxW x e r 0 0 none, hs, Except.map]
    | split b =>
      obtain ⟨hb0, hblt, _, _⟩ := scanStep_split_top font maxW x b hs
      have hble : b ≤ x.length := Nat.le_of_lt hblt
      have hdrop : (x ++ ('\x00', e) :: r).drop b = x.drop b ++ ('\x00', e) :: r :=
        List.drop_append_of_le_length hble
      have htake : (x ++ ('\x00', e) :: r).take b = x.take b :=
        List.take_append_of_le_length hble
      have h0' : '\x00' ∉ (x.drop b).map Prod.fst := by
        rw [List.map_drop]
        intro hm
        exact h0 (List.mem_of_mem_drop hm)
      have hdl : (x.drop b).length = x.length - b := by simp
      have hlen : (x.drop b).length ≤ fuel := by rw [hdl]; omega
      have hscn := scanStep_null font maxW x e r 0 0 none
      simp only [applyCoreF, hscn, hs, hdrop, htake]
      exact ih (x.drop b) e r _ hlen h0'

/-- Two fonts agreeing away from the newline character drive a pass identically: the width
of a newline is never looked up. -/
theorem scanStep_congr (f g : Char → Option Nat) (maxW : Nat)
    (hfg : ∀ c, c ≠ '\n' → f c = g c) (l : List Entry) :
    ∀ (cursor w : Nat) (bp : Option Nat),
      scanStep f maxW l cursor w bp = scanStep g maxW l cursor w bp := by
  induction l with
  | nil => intro cursor w bp; rfl
  | cons e0 rest ih =>
    obtain ⟨c, brk⟩ := e0
    intro cursor w bp
    by_cases h0 : c = '\x00'
    · simp [scanStep, h0]
    · by_cases hn : c = '\n'
      · simp only [scanStep, if_neg h0, if_pos hn]
        exact ih (cursor + 1) 0 bp
      · simp only [scanStep, if_neg h0, if_neg hn, ← hfg c hn]
        rcases hf : f c with _ | wc
        · rfl
        · by_cases hov : maxW < w + wc
          · cases bp <;> simp [hov]
          · simp only [if_neg hov]
            exact ih (cursor + 1) (w + wc) _

/-- The loop under two fonts agreeing away from the newline character. -/
theorem applyCoreF_congr (f g : Char → Option Nat) (maxW : Nat)
    (hfg : ∀ c, c ≠ '\n' → f c = g c) :
    ∀ (fuel : Nat) (chars : List Entry) (out : List Char),
      applyCoreF f maxW fuel chars out = applyCoreF g maxW fuel chars out := by
  intro fuel
  induction fuel with
  | zero => intro chars out; rfl
  | succ fuel ih =>
    intro chars out
    rw [applyCoreF, applyCoreF, ← scanStep_congr f g maxW hfg chars 0 0 none]
    cases hs : scanStep f maxW chars 0 0 none with
    | missing c => rfl
    | noBreak => rfl
    | done => rfl
    | split b => exact ih _ _

/-! ### Structural lemmas about the scanner output -/

/-- The automaton emits exactly one pair per input pair. -/
theorem lbScan_length (T : Tables) :
    ∀ (st : Nat) (z : Bool) (l : List (Nat × Nat)), (lbScan T st z l).length = l.length := by
  intro st z l
  induction l generalizing st z with
  | nil => rfl
  | cons p rest ih =>
    obtain ⟨i, cls⟩ := p
    simp [lbScan, ih]

/-- The automaton preserves the tagged offsets. -/
theorem lbScan_map_fst (T : Tables) :
    ∀ (st : Nat) (z : Bool) (l : List (Nat × Nat)),
      (lbScan T st z l).map Prod.fst = l.map Prod.fst := by
  intro st z l
  induction l generalizing st z with
  | nil => rfl
  | cons p rest ih =>
    obtain ⟨i, cls⟩ := p
    simp [lbScan, ih]

/-- The characters carried by `char_indices`. -/
theorem charIndicesAux_map_snd :
    ∀ (l : List Char) (i : Nat), (charIndicesAux i l).map Prod.snd = l := by
  intro l
  induction l with
  | nil => intro i; rfl
  | cons c rest ih => intro i; simp [charIndicesAux, ih]

/-- One pair of `char_indices` per character. -/
theorem charIndicesAux_length :
    ∀ (l : List Char) (i : Nat), (charIndicesAux i l).length = l.length := by
  intro l
  induction l with
  | nil => intro i; rfl
  | cons c rest ih => intro i; simp [charIndicesAux, ih]

/-- The classes fed to the automaton: the string's classified codepoints then the sentinel. -/
theorem lbInputs_map_snd (T : Tables) (s : String) :
    (lbInputs T s).map Prod.snd = classesOf T s ++ [T.eot] := by
  rw [lbInputs, classesOf, List.map_append]
  congr 1
  rw [charIndices, List.map_map]
  have : ∀ (l : List Char) (i : Nat),
      ((charIndicesAux i l).map fun p => break_property T p.2.toNat) =
        l.map fun c => break_property T c.toNat := by
    intro l
    induction l with
    | nil => intro i; rfl
    | cons c rest ih => intro i; simp [charIndicesAux, ih]
  simpa using this s.data 0

/-- `linebreaks` emits one pair per codepoint plus the trailing sentinel. -/
theorem linebreaks_length (T : Tables) (s : String) :
    (linebreaks T s).length = s.data.length + 1 := by
  rw [linebreaks, lbScan_length, lbInputs]
  simp [charIndices, charIndicesAux_length]

/-- First components of a zip. -/
theorem zip_map_fst {α β : Type} :
    ∀ (a : List α) (b : List β), (a.zip b).map Prod.fst = a.take b.length := by
  intro a
  induction a with
  | nil => intro b; simp
  | cons x a ih =>
    intro b
    cases b with
    | nil => simp
    | cons y b => simp [ih]

/-- Second components of a zip. -/
theorem zip_map_snd {α β : Type} :
    ∀ (a : List α) (b : List β), (a.zip b).map Prod.snd = b.take a.length := by
  intro a
  induction a with
  | nil => intro b; simp
  | cons x a ih =>
    intro b
    cases b with
    | nil => simp
    | cons y b => simp [ih]

/-- The working sequence of the wrapper carries exactly the string's characters. -/
theorem annotate_map_fst (T : Tables) (s : String) :
    (annotate T s).map Prod.fst = s.data := by
  rw [annotate, zip_map_fst, List.length_map, linebreaks_length]
  exact List.take_of_length_le (by omega)

/-- One working-sequence entry per character: the trailing sentinel is discarded. -/
theorem annotate_length (T : Tables) (s : String) :
    (annotate T s).length = s.data.length := by
  rw [annotate, List.length_zip, List.length_map, linebreaks_length]
  omega

/-- The annotations of the working sequence are the scanner's, without the sentinel. -/
theorem annotate_map_snd (T : Tables) (s : String) :
    (annotate T s).map Prod.snd = ((linebreaks T s).map Prod.snd).take s.data.length := by
  rw [annotate, zip_map_snd]

/-- The pair at index `k` of the automaton's output: the offset of input `k`, and the
emission computed from the state reached by folding the first `k` classes, the class at `k`,
and whether the class at `k - 1` (for `k = 0`: the initial flag) is the ZWJ class. -/
theorem lbScan_getD (T : Tables) :
    ∀ (l : List (Nat × Nat)) (st : Nat) (z : Bool) (k : Nat), k < l.length →
      (lbScan T st z l).getD k (0, none) =
        ((l.getD k (0, 0)).1,
          emit T
            (pairLookup T
              (((l.map Prod.snd).take k).foldl
                (fun a cls => stripBits T (pairLookup T a cls)) st)
              ((l.map Prod.snd).getD k 0))
            (match k with
             | 0 => z
             | k0 + 1 => (l.map Prod.snd).getD k0 0 == T.zwjClass)) := by
  intro l
  induction l with
  | nil => intro st z k hk; simp at hk
  | cons p rest ih =>
    obtain ⟨i, cls⟩ := p
    intro st z k hk
    cases k with
    | zero => simp [lbScan]
    | succ k =>
      have hk' : k < rest.length := by simpa using hk
      have hih := ih (stripBits T (pairLookup T st cls)) (cls == T.zwjClass) k hk'
      rw [lbScan, List.getD_cons_succ, hih]
      simp only [List.map_cons, List.take_succ_cons, List.foldl_cons, List.getD_cons_succ]
      cases k with
      | zero => simp
      | succ k0 => simp

/-! ### Claim theorems -/

/-- C8 (confirmed): the classifier is total — it returns exactly one class for every
codepoint — and any codepoint whose high bits fall outside the page-index table is
classified as the `Unknown` class rather than erroring. -/
theorem c8_classifier_total (T : Tables) (cp : Nat) :
    (∃! b, break_property T cp = b) ∧
      (T.pageIndices.length ≤ cp >>> 8 → break_property T cp = T.unknownClass) := by
  constructor
  · exact ⟨break_property T cp, rfl, fun y hy => hy.symm⟩
  · intro h
    rw [break_property, List.get?_eq_none.mpr h]

/-- Witness for C8 at a concrete out-of-range codepoint. -/
theorem c8_witness :
    tTest.pageIndices.length ≤ 65536 >>> 8 ∧
      break_property tTest 65536 = tTest.unknownClass :=
  ⟨by decide, (c8_classifier_total tTest 65536).2 (by decide)⟩

/-- C4 (confirmed): a `Mandatory` emission never depends on the ZWJ-suppression flag; an
allowed non-mandatory break is emitted as no break exactly when the flag is set (i.e. when
the lookup immediately follows a ZWJ-class codepoint); and the automaton passes
`cls == zwjClass` — whether the current codepoint's class is the ZWJ class — as the next
flag. -/
theorem c4_zwj_suppression (T : Tables) (val : Nat) (st i cls : Nat) (z : Bool)
    (rest : List (Nat × Nat)) :
    (emit T val true = some .Mandatory ↔ emit T val false = some .Mandatory)
    ∧ (val &&& T.allowedBit ≠ 0 → val &&& T.mandatoryBit = 0 →
        ∀ (z' : Bool), emit T val z' = if z' then none else some .Allowed)
    ∧ (lbScan T st z ((i, cls) :: rest) =
        (i, emit T (pairLookup T st cls) z) ::
          lbScan T (stripBits T (pairLookup T st cls)) (cls == T.zwjClass) rest) := by
  refine ⟨?_, ?_, rfl⟩
  · by_cases hA : (val &&& T.allowedBit != 0) = true <;>
      by_cases hM : (val &&& T.mandatoryBit != 0) = true <;>
        simp [emit, hA, hM]
  · intro hA hM z'
    have hA' : (val &&& T.allowedBit != 0) = true := by simpa using hA
    have hM' : (val &&& T.mandatoryBit != 0) = false := by simpa using hM
    cases z' <;> simp [emit, hA', hM']

/-- Witness for C4: a packed value with the allowed bit and no mandatory bit is suppressed
after a ZWJ and emitted as `Allowed` otherwise. -/
theorem c4_witness :
    emit tTest 64 true = none ∧ emit tTest 64 false = some .Allowed := by
  constructor
  · have := (c4_zwj_suppression tTest 64 0 0 0 true []).2.1 (by decide) (by decide) true
    simpa using this
  · have := (c4_zwj_suppression tTest 64 0 0 0 false []).2.1 (by decide) (by decide) false
    simpa using this

/-- C3 (amended): the scanner emits one pair per codepoint plus one trailing sentinel pair
at the string's byte length; the wrapper zips the characters with the annotations,
discarding the sentinel; and the annotation tagged with codepoint `k`'s offset is the
table's verdict for the boundary immediately *before* codepoint `k` (the sentinel pair
carries the verdict for the boundary after the final codepoint). -/
theorem c3_scanner_shape (T : Tables) (s : String) :
    ((linebreaks T s).length = s.data.length + 1)
    ∧ ((linebreaks T s).map Prod.fst = (charIndices s).map Prod.fst ++ [strByteLen s])
    ∧ ((annotate T s).map Prod.fst = s.data ∧
        (annotate T s).map Prod.snd = ((linebreaks T s).map Prod.snd).take s.data.length)
    ∧ (∀ k, k < s.data.length + 1 →
        ((linebreaks T s).getD k (0, none)).2 =
          boundaryBefore T (classesOf T s ++ [T.eot]) k) := by
  refine ⟨linebreaks_length T s, ?_, ⟨annotate_map_fst T s, annotate_map_snd T s⟩, ?_⟩
  · rw [linebreaks, lbScan_map_fst, lbInputs]
    simp
  · intro k hk
    have hlen : k < (lbInputs T s).length := by
      rw [lbInputs]
      simp only [List.length_append, List.length_map, List.length_cons, List.length_nil]
      rw [charIndices, charIndicesAux_length]
      omega
    have := lbScan_getD T (lbInputs T s) T.sot false k hlen
    rw [linebreaks, this, lbInputs_map_snd]
    rfl

/-- Counterexample to C3 as stated: with a spec-faithful table that allows a break between a
space and a following letter, the pair tagged with the space's offset in "a b" carries no
break, while the boundary immediately *after* the space (claim C3's reading, `linebreaksSpecAfter`)
is an allowed break. -/
theorem c3_counterexample :
    (linebreaks tTest "a b").getD 1 (0, none) ≠
      (linebreaksSpecAfter tTest "a b").getD 1 (0, none) := by
  decide

/-- Witness for C3's amended indexed clause at a concrete index. -/
theorem c3_witness :
    1 < ("a b" : String).data.length + 1 ∧
      ((linebreaks tTest "a b").getD 1 (0, none)).2 =
        boundaryBefore tTest (classesOf tTest "a b" ++ [tTest.eot]) 1 :=
  ⟨by decide, ((c3_scanner_shape tTest "a b").2.2.2 1 (by decide))⟩

/-- C2 (amended): `apply_newlines` returns `NoLegalLinebreakOpportunity` exactly when some
working sequence reached by the outer loop has a position whose accumulated width exceeds
the budget with no safe break recorded strictly before it — where a break is recorded only
at a non-newline position other than the sub-scan's first whose annotation is present.  The
error is returned bare (`Except.error`): no partial output accompanies it. -/
theorem c2_noLegal_iff (T : Tables) (s : String) (maxW : Nat) (font : Char → Option Nat) :
    apply_newlines T s maxW font = .error .NoLegalLinebreakOpportunity ↔
      ∃ l, Reaches font maxW (annotate T s) l ∧ noBreakOverflow font maxW l = true := by
  rw [apply_newlines, applyCore,
    ← applyCoreF_noLegal_iff font maxW (annotate T s).length (annotate T s) []
      (Nat.le_refl _)]
  cases h : applyCoreF font maxW (annotate T s).length (annotate T s) [] with
  | error e => cases e <;> simp [Except.map]
  | ok v => simp [Except.map]

/-- Counterexample to C2 as stated: its parenthetical counts an annotation "at or before the
overflow point" at any position other than the first as a recorded break.  With widths
1/1/3 and budget 2, "a b" overflows at 'b', whose own annotation is the only one present:
the loop records nothing (recording happens strictly before overflow), so the code fails
with `NoLegalLinebreakOpportunity`, while claim C2's condition (`noBreakOverflowSpec`) is
false — the stated equivalence does not hold. -/
theorem c2_counterexample :
    ¬ (apply_newlines tTest "a b" 2 f3 = .error .NoLegalLinebreakOpportunity ↔
        ∃ l, Reaches f3 2 (annotate tTest "a b") l ∧
          noBreakOverflowSpec f3 2 l = true) := by
  intro hiff
  have herr : apply_newlines tTest "a b" 2 f3 = .error .NoLegalLinebreakOpportunity := by
    rfl
  obtain ⟨l, hr, hnb⟩ := hiff.mp herr
  have hscan : scanStep f3 2 (annotate tTest "a b") 0 0 none = .noBreak := by rfl
  have hl : l = annotate tTest "a b" := by
    rcases Reaches_cases f3 2 hr with h' | ⟨b, hs, _⟩
    · exact h'
    · rw [hscan] at hs; cases hs
  subst hl
  have hfalse : noBreakOverflowSpec f3 2 (annotate tTest "a b") = false := by rfl
  rw [hfalse] at hnb
  cases hnb

/-- C9 (confirmed): every split point of a pass started at the top of the working sequence
is positive — never the sub-scan's first character — so the suffix is strictly shorter; and
the fuelled loop is stable once the fuel reaches the sequence length, i.e. the outer loop
finishes within that many rounds. -/
theorem c9_termination (font : Char → Option Nat) (maxW : Nat) :
    (∀ (chars : List Entry) (b : Nat), scanStep font maxW chars 0 0 none = .split b →
      0 < b ∧ (chars.drop b).length < chars.length)
    ∧ (∀ (fuel : Nat) (chars : List Entry) (out : List Char), chars.length ≤ fuel →
        applyCoreF font maxW fuel chars out = applyCore font maxW chars out) := by
  constructor
  · intro chars b h
    obtain ⟨hb0, hblt, _, _⟩ := scanStep_split_top font maxW chars b h
    refine ⟨hb0, ?_⟩
    rw [List.length_drop]
    omega
  · intro fuel chars out h
    rw [applyCore]
    exact applyCoreF_fuel font maxW fuel chars out chars.length h (Nat.le_refl _)

/-- Witness for C9 at a concrete splitting sequence and a concrete oversized fuel. -/
theorem c9_witness :
    (0 < 1 ∧ (demoCross.drop 1).length < demoCross.length) ∧
      applyCoreF f1 2 10 demoCross [] = applyCore f1 2 demoCross [] :=
  ⟨(c9_termination f1 2).1 demoCross 1 (by rfl),
    (c9_termination f1 2).2 10 demoCross [] (by decide)⟩

/-- C5 (confirmed): a literal newline resets the accumulated width to zero, is never looked
up in the font (two fonts agreeing away from the newline produce identical results), and
leaves the recorded safe break point untouched; concretely, `demoCross` — whose only
annotation precedes its newline — splits at that pre-newline break point when the overflow
occurs after the newline. -/
theorem c5_newline_reset :
    (∀ (font : Char → Option Nat) (maxW : Nat) (b : Option BreakOpportunity)
        (rest : List Entry) (cursor w : Nat) (bp : Option Nat),
        scanStep font maxW (('\n', b) :: rest) cursor w bp =
          scanStep font maxW rest (cursor + 1) 0 bp)
    ∧ (∀ (T : Tables) (s : String) (maxW : Nat) (f g : Char → Option Nat),
        (∀ c, c ≠ '\n' → f c = g c) →
        apply_newlines T s maxW f = apply_newlines T s maxW g)
    ∧ (scanStep f1 2 demoCross 0 0 none = .split 1 ∧
        (demoCross.getD 2 (' ', none)).1 = '\n' ∧
        ∀ i, i < 6 → 2 < i → (demoCross.getD i (' ', none)).2 = none) := by
  refine ⟨?_, ?_, by decide, by decide, by decide⟩
  · intro font maxW b rest cursor w bp
    simp [scanStep]
  · intro T s maxW f g hfg
    rw [apply_newlines, apply_newlines, applyCore, applyCore,
      applyCoreF_congr f g maxW hfg]

/-- Witness for C5's font-independence clause with two fonts differing only at the newline. -/
theorem c5_witness :
    apply_newlines tTest "a\nb" 3 fA = apply_newlines tTest "a\nb" 3 f1 :=
  c5_newline_reset.2.1 tTest "a\nb" 3 fA f1 (fun c hc => by simp [fA, f1, hc])

/-- The default head of a nonempty list is a member. -/
theorem headD_mem {α : Type} (L : List α) (d : α) (hL : L ≠ []) : L.headD d ∈ L := by
  cases L with
  | nil => exact absurd rfl hL
  | cons a L' => simp

/-- C6 (confirmed): over a null-free string whose characters are all covered by the font and
whose every newline-delimited line fits the budget, `apply_newlines` returns the input
unchanged. -/
theorem c6_wide_budget (T : Tables) (s : String) (maxW : Nat) (font : Char → Option Nat)
    (h0 : '\x00' ∉ s.data) (hcov : ∀ c ∈ s.data, (font c).isSome)
    (hfit : linesFit font maxW s.data) :
    apply_newlines T s maxW font = .ok s := by
  have hsc : scanOk font maxW s.data 0 = true := by
    apply fits_scanOk font maxW s.data 0 h0 hcov
    · simpa using hfit _ (headD_mem (linesOf s.data) [] (linesOf_ne_nil s.data))
    · intro seg hseg
      exact hfit seg (List.mem_of_mem_tail hseg)
  have hdone : scanStep font maxW (annotate T s) 0 0 none = .done := by
    rw [scanStep_done_iff, annotate_map_fst]
    exact hsc
  rw [apply_newlines, applyCore, applyCoreF_done font maxW _ [] hdone,
    List.nil_append, annotate_map_fst]
  rfl

/-- Witness for C6 at a concrete covered, fitting string. -/
theorem c6_witness : apply_newlines tTest "ab" 5 f1 = .ok "ab" :=
  c6_wide_budget tTest "ab" 5 f1 (by decide) (by decide) (by decide)

/-- C7 (confirmed): re-wrapping a successful output with the same budget and font returns
it unchanged — every reconstructed line of the output fits, so the fresh pass never
overflows and never splits. -/
theorem c7_stability (T : Tables) (s : String) (maxW : Nat) (font : Char → Option Nat)
    (w : String) (h : apply_newlines T s maxW font = .ok w) :
    apply_newlines T w maxW font = .ok w := by
  rw [apply_newlines, applyCore] at h
  rcases hc : applyCoreF font maxW (annotate T s).length (annotate T s) [] with e | v
  · rw [hc] at h; simp [Except.map] at h
  · rw [hc] at h
    simp only [Except.map] at h
    injection h with hw
    have hwd : w.data = v := by rw [← hw]
    have hsc : scanOk font maxW v 0 = true :=
      applyCoreF_ok_scanOk font maxW _ (annotate T s) [] v (Nat.le_refl _) (by simp)
        (by simp [scanOk]) (by simp [endW]) hc
    have hdone : scanStep font maxW (annotate T w) 0 0 none = .done := by
      rw [scanStep_done_iff, annotate_map_fst, hwd]
      exact hsc
    rw [apply_newlines, applyCore, applyCoreF_done font maxW _ [] hdone,
      List.nil_append, annotate_map_fst]
    rfl

/-- Witness for C7: a string that actually wraps, then re-wraps unchanged. -/
theorem c7_witness : apply_newlines tTest "aa \nbb" 4 f1 = .ok "aa \nbb" :=
  c7_stability tTest "aa bb" 4 f1 "aa \nbb" (by rfl)

/-- C1 (amended): over a null-free input, every reconstructed line of a successful result
has accumulated width within the budget; and a null-free, fully covered input containing a
non-newline character wider than the budget fails with `NoLegalLinebreakOpportunity`. -/
theorem c1_line_widths :
    (∀ (T : Tables) (s : String) (maxW : Nat) (font : Char → Option Nat) (w : String),
      '\x00' ∉ s.data → apply_newlines T s maxW font = .ok w →
      linesFit font maxW w.data)
    ∧ (∀ (T : Tables) (s : String) (maxW : Nat) (font : Char → Option Nat) (c : Char)
        (wc : Nat),
        '\x00' ∉ s.data → (∀ ch ∈ s.data, ch ≠ '\n' → (font ch).isSome) →
        c ∈ s.data → c ≠ '\n' → font c = some wc → maxW < wc →
        apply_newlines T s maxW font = .error .NoLegalLinebreakOpportunity) := by
  constructor
  · intro T s maxW font w h0 h
    rw [apply_newlines, applyCore] at h
    rcases hc : applyCoreF font maxW (annotate T s).length (annotate T s) [] with e | v
    · rw [hc] at h; simp [Except.map] at h
    · rw [hc] at h
      simp only [Except.map] at h
      injection h with hw
      have hwd : w.data = v := by rw [← hw]
      have hsc : scanOk font maxW v 0 = true :=
        applyCoreF_ok_scanOk font maxW _ (annotate T s) [] v (Nat.le_refl _) (by simp)
          (by simp [scanOk]) (by simp [endW]) hc
      have hv0 : '\x00' ∉ v := by
        intro hm
        rcases applyCoreF_ok_chars font maxW _ (annotate T s) [] v hc '\x00' hm
          with h' | h' | h'
        · simp at h'
        · rw [annotate_map_fst] at h'; exact h0 h'
        · exact absurd h' (by decide)
      obtain ⟨hh, ht⟩ := scanOk_fits font maxW v 0 hv0 hsc (Nat.zero_le _)
      rw [hwd]
      intro seg hseg
      rcases (mem_iff_headD_tail (linesOf v) [] (linesOf_ne_nil v) seg).mp hseg
        with rfl | hseg'
      · omega
      · exact ht seg hseg'
  · intro T s maxW font c wc h0 hcov hc hcn hfc hwide
    rw [apply_newlines, applyCore]
    have := applyCoreF_wide font maxW c wc hcn hfc hwide (annotate T s).length
      (annotate T s) [] (Nat.le_refl _) (by rw [annotate_map_fst]; exact h0)
      (by rw [annotate_map_fst]; exact hcov) (by rw [annotate_map_fst]; exact hc)
    rw [this]
    rfl

/-- Counterexample to C1 as stated.  First conjunct: an input whose first character is a
null wraps successfully, yet its single line exceeds the budget even under a fully covering
font — the "every line fits" half fails without a null-free hypothesis.  Second conjunct: a
newline with a huge font width is never measured, so a "character whose own width exceeds
the budget" wraps successfully — the failure half needs the character to be measurable.
Third conjunct: with another character's width missing, the error is
`MissingCharacterWidth`, not `NoLegalLinebreakOpportunity`. -/
theorem c1_counterexample :
    (apply_newlines tTest "\x00aa" 1 f1 = .ok "\x00aa" ∧
      ¬ linesFit f1 1 ("\x00aa" : String).data)
    ∧ (apply_newlines tTest "a\nb" 1 f2 = .ok "a\nb" ∧ f2 '\n' = some 100 ∧ 1 < 100)
    ∧ (apply_newlines tTest "≤a" 1 f5 = .error (.MissingCharacterWidth '≤') ∧
        f5 'a' = some 5 ∧ 1 < 5) := by
  exact ⟨⟨by rfl, by decide⟩, ⟨by rfl, by rfl, by decide⟩, ⟨by rfl, by rfl, by decide⟩⟩

/-- Witness for both halves of amended C1 at concrete inputs. -/
theorem c1_witness :
    linesFit f1 5 ("ab" : String).data ∧
      apply_newlines tTest "ab" 1 f3 = .error .NoLegalLinebreakOpportunity := by
  constructor
  · exact c1_line_widths.1 tTest "ab" 5 f1 "ab" (by decide) (by rfl)
  · exact c1_line_widths.2 tTest "ab" 1 f3 'b' 3 (by decide) (by decide) (by decide)
      (by decide) (by rfl) (by decide)

/-- C10 (confirmed): the loop's result on a working sequence with a null is its result on
the null-free part before the first null, with the null and everything after it appended
verbatim — characters beyond the null are never measured (the equation holds for every
`r`, including entries the font does not cover) and never split; concretely, a string
headed by a null returns unchanged even though the font covers none of its later
characters. -/
theorem c10_null_guard :
    (∀ (font : Char → Option Nat) (maxW : Nat) (x : List Entry)
        (b : Option BreakOpportunity) (r : List Entry) (out : List Char),
        '\x00' ∉ x.map Prod.fst →
        applyCore font maxW (x ++ ('\x00', b) :: r) out =
          (applyCore font maxW x out).map (fun w => w ++ '\x00' :: r.map Prod.fst))
    ∧ apply_newlines tTest "\x00≤≤" 5 fNone = .ok "\x00≤≤" := by
  constructor
  · intro font maxW x b r out h0
    simp only [applyCore]
    have hle : x.length ≤ (x ++ ('\x00', b) :: r).length := by simp
    rw [applyCoreF_null font maxW (x ++ ('\x00', b) :: r).length x b r out hle h0,
      applyCoreF_fuel font maxW (x ++ ('\x00', b) :: r).length x out x.length hle
        (Nat.le_refl _)]
  · rfl

/-- Witness for C10's core equation at a concrete working sequence. -/
theorem c10_witness :
    applyCore f1 1 [('a', none), ('\x00', none), ('b', none)] [] =
      (applyCore f1 1 [('a', none)] []).map (fun w => w ++ '\x00' :: ['b']) := by
  have := c10_null_guard.1 f1 1 [('a', none)] none [('b', none)] [] (by decide)
  simpa using this
